import Mathlib

/-!
Shallow embedding of the transform-and-load core of the ETL-Pipeline
repository (src/etl_pipeline.py and src/glue_etl_job.py).

A RecordSet models a Spark DataFrame as an ordered list of column names
together with an ordered list of rows, each row a positional list of
scalar values.  The scalar values carried by the pipeline are strings,
numbers (modelled as integers; no arithmetic is performed on them),
calendar dates (produced by `to_date`) and null.

Both pipeline implementations are embedded stage by stage, following the
source lines:
  * `RecordSet.normalize`   — etl_pipeline.py:131-132 (select/alias) and
    glue_etl_job.py:59-62 (withColumnRenamed loop; for any column list the
    loop performs exactly the per-name rename, so both reduce to mapping
    `normalizeName` over the column list, values untouched);
  * `coerceDates`           — etl_pipeline.py:136-138 / glue_etl_job.py:65-67;
  * `etlProcessedDate`      — etl_pipeline.py:141-143: `withColumn` whose
    expression references `col("processed_date")`, which Spark fails to
    resolve when the column is absent (hence the `Except`); when present,
    the `when(isNull, lit(str)).otherwise(col)` expression has common type
    string, so surviving date values are cast back to their string form;
  * `glue` processed_date   — glue_etl_job.py:70: unconditional overwrite
    with the capture-date literal, embedded via `withColumn`;
  * `addYearMonth`          — etl_pipeline.py:150-152 / glue_etl_job.py:77-79;
  * `keptRows`/`filterDedup`— etl_pipeline.py:154-158 / glue_etl_job.py:81-85,
    with `dropDuplicates` given its deterministic sequential semantics:
    keep the first occurrence of each row value, order preserved, null
    comparing equal to null;
  * `etlLoadPath`           — etl_pipeline.py:179-180, `glueOutputPath` —
    glue_etl_job.py:39-40;
  * `runPipeline`           — etl_pipeline.py:200-236 (try/finally session
    lifecycle, each stage an explicit exit path).
-/

/-- Scalar cell values held by a RecordSet. -/
inductive Value where
  | null : Value
  | str : String → Value
  | int : Int → Value
  | date : Nat → Nat → Nat → Value
deriving DecidableEq, Repr

/-- A DataFrame: ordered column names and ordered rows of positional values. -/
structure RecordSet where
  cols : List String
  rows : List (List Value)
deriving DecidableEq, Repr

/-- Well-formedness: every row has exactly one value per column. -/
def RecordSet.WF (rs : RecordSet) : Prop :=
  ∀ r ∈ rs.rows, r.length = rs.cols.length

/-- ASCII lowercasing of one character, as Python `str.lower` acts on the
ASCII range (the only range exercised by column names in this system). -/
def lowerChar (c : Char) : Char :=
  if 65 ≤ c.toNat ∧ c.toNat ≤ 90 then Char.ofNat (c.toNat + 32) else c

/-- `c.lower()` on a whole string. -/
def lowerStr (s : String) : String :=
  ⟨s.data.map lowerChar⟩

/-- One character of `c.lower().replace(' ', '_').replace('-', '_')`
(etl_pipeline.py:131, glue_etl_job.py:60): lowercasing leaves space and
hyphen unchanged, so the composition acts independently per character. -/
def normChar (c : Char) : Char :=
  if c = ' ' ∨ c = '-' then '_' else lowerChar c

/-- Column-name normalization: lowercase, then spaces and hyphens to
underscores. -/
def normalizeName (s : String) : String :=
  ⟨s.data.map normChar⟩

/-- Schema Normalizer: rename every column, keep order and values
(etl_pipeline.py:131-132 select/alias; glue_etl_job.py:59-62 rename loop). -/
def RecordSet.normalize (rs : RecordSet) : RecordSet :=
  { cols := rs.cols.map normalizeName, rows := rs.rows }

/-- Does `pat` occur as a leading block of `l`? -/
def startsWithList : List Char → List Char → Bool
  | [], _ => true
  | _ :: _, [] => false
  | a :: as, b :: bs => a = b && startsWithList as bs

/-- Does `pat` occur contiguously anywhere in `l`?  (Python `in` on str.) -/
def containsList (pat : List Char) : List Char → Bool
  | [] => startsWithList pat []
  | c :: rest => startsWithList pat (c :: rest) || containsList pat rest

/-- Python `pat in s` for strings. -/
def containsSub (pat s : String) : Bool :=
  containsList pat.data s.data

/-- `'date' in c.lower()` (etl_pipeline.py:136, glue_etl_job.py:65). -/
def isDateCol (c : String) : Bool :=
  containsSub "date" (lowerStr c)

/-- Date-bearing columns, in column order. -/
def dateColsOf (cols : List String) : List String :=
  cols.filter (fun c => isDateCol c)

/-- `'amount' in c.lower() or 'value' in c.lower()`
(etl_pipeline.py:146, glue_etl_job.py:73). -/
def isAmountCol (c : String) : Bool :=
  containsSub "amount" (lowerStr c) || containsSub "value" (lowerStr c)

/-- Amount-bearing columns, in column order. -/
def amountColsOf (cols : List String) : List String :=
  cols.filter (fun c => isAmountCol c)

/-- Index of the first occurrence of a column name. -/
def firstIdx : List String → String → Nat
  | [], _ => 0
  | a :: as, c => if a = c then 0 else firstIdx as c + 1

/-- Value of named column in a row (Spark resolves `col(name)` to the first
matching column). -/
def getV (cols : List String) (c : String) (row : List Value) : Value :=
  (row[firstIdx cols c]?).getD Value.null

/-- Spark `withColumn name expr`: replace the column in place when the name
exists, append it otherwise.  The expression may read the current row. -/
def withColumn (name : String) (f : List String → List Value → Value)
    (rs : RecordSet) : RecordSet :=
  if name ∈ rs.cols then
    { cols := rs.cols,
      rows := rs.rows.map (fun r => r.set (firstIdx rs.cols name) (f rs.cols r)) }
  else
    { cols := rs.cols ++ [name],
      rows := rs.rows.map (fun r => r ++ [f rs.cols r]) }

/-- Digit test for date parsing. -/
def isDigitCh (c : Char) : Bool :=
  48 ≤ c.toNat && c.toNat ≤ 57

/-- Numeric value of a digit character. -/
def digitVal (c : Char) : Nat :=
  c.toNat - 48

/-- Gregorian leap-year rule. -/
def isLeap (y : Nat) : Bool :=
  (y % 4 == 0 && y % 100 != 0) || y % 400 == 0

/-- Days in a month of the Gregorian calendar. -/
def daysInMonth (y m : Nat) : Nat :=
  if m = 2 then (if isLeap y then 29 else 28)
  else if m = 4 ∨ m = 6 ∨ m = 9 ∨ m = 11 then 30
  else 31

/-- Strict `yyyy-MM-dd` parse: exactly ten characters, digits and hyphens in
place, month and day within calendar range (Spark 3 `to_date` semantics). -/
def parseYMD (s : String) : Option (Nat × Nat × Nat) :=
  match s.data with
  | [a, b, c, d, h1, e, f, h2, g, h] =>
    if isDigitCh a && isDigitCh b && isDigitCh c && isDigitCh d &&
       (h1 == '-') && isDigitCh e && isDigitCh f && (h2 == '-') &&
       isDigitCh g && isDigitCh h then
      let y := ((digitVal a * 10 + digitVal b) * 10 + digitVal c) * 10 + digitVal d
      let m := digitVal e * 10 + digitVal f
      let dd := digitVal g * 10 + digitVal h
      if 1 ≤ m && m ≤ 12 && 1 ≤ dd && dd ≤ daysInMonth y m then
        some (y, m, dd)
      else none
    else none
  | _ => none

/-- `to_date(col, "yyyy-MM-dd")` on one value: strings parse or become null,
dates pass through, every other value (after the implicit cast to string)
fails to parse and becomes null.  Never raises. -/
def parseDateVal : Value → Value
  | Value.str s =>
    match parseYMD s with
    | some (y, m, d) => Value.date y m d
    | none => Value.null
  | Value.date y m d => Value.date y m d
  | _ => Value.null

/-- Coerce every date-bearing column of every row
(etl_pipeline.py:136-138, glue_etl_job.py:65-67). -/
def coerceDates (rs : RecordSet) : RecordSet :=
  { cols := rs.cols,
    rows := rs.rows.map (fun row =>
      (rs.cols.zip row).map (fun p =>
        if isDateCol p.1 then parseDateVal p.2 else p.2)) }

/-- Zero-padded two-digit rendering. -/
def pad2 (n : Nat) : String :=
  if n < 10 then "0" ++ toString n else toString n

/-- Zero-padded four-digit rendering. -/
def pad4 (n : Nat) : String :=
  if n < 10 then "000" ++ toString n
  else if n < 100 then "00" ++ toString n
  else if n < 1000 then "0" ++ toString n
  else toString n

/-- Spark's rendering of a date value cast to string. -/
def fmtDate (y m d : Nat) : String :=
  pad4 y ++ "-" ++ pad2 m ++ "-" ++ pad2 d

/-- Implicit cast to string applied by the common-type resolution of
`when(isNull, lit(string)).otherwise(col)` over a date column. -/
def castStr : Value → Value
  | Value.date y m d => Value.str (fmtDate y m d)
  | Value.int n => Value.str (toString n)
  | v => v

/-- etl_pipeline.py:141-143.  `withColumn("processed_date", when(col(
"processed_date").isNull(), lit(capture)).otherwise(col("processed_date")))`:
Spark cannot resolve `col("processed_date")` when the column is absent, so
the stage fails there; when present, nulls are filled with the capture date
and the surviving values are cast to the common type string. -/
def etlProcessedDate (capture : String) (rs : RecordSet) :
    Except String RecordSet :=
  if "processed_date" ∈ rs.cols then
    Except.ok (withColumn "processed_date"
      (fun cols row =>
        let v := getV cols "processed_date" row
        if v = Value.null then Value.str capture else castStr v) rs)
  else
    Except.error "cannot resolve column processed_date"

/-- `year(col d0)` on one value: year of a date, null otherwise; a string is
implicitly cast to date first. -/
def yearOf : Value → Value
  | Value.date y _ _ => Value.int y
  | Value.str s =>
    match parseYMD s with
    | some (y, _, _) => Value.int y
    | none => Value.null
  | _ => Value.null

/-- `month(col d0)` on one value. -/
def monthOf : Value → Value
  | Value.date _ m _ => Value.int m
  | Value.str s =>
    match parseYMD s with
    | some (_, m, _) => Value.int m
    | none => Value.null
  | _ => Value.null

/-- etl_pipeline.py:150-152 / glue_etl_job.py:77-79: append `year` then
`month`, both read from the first date-bearing column. -/
def addYearMonth (d0 : String) (rs : RecordSet) : RecordSet :=
  withColumn "month" (fun cols row => monthOf (getV cols d0 row))
    (withColumn "year" (fun cols row => yearOf (getV cols d0 row)) rs)

/-- Enricher of etl_pipeline.py (lines 136-152), applied to the normalized
RecordSet: date coercion, processed_date ensure (which fails when the column
is absent), then year/month when an amount- and a date-bearing column exist.
`date_columns` is captured at line 136, before the processed_date step. -/
def etlEnrich (capture : String) (rs : RecordSet) : Except String RecordSet :=
  let dcols := dateColsOf rs.cols
  match etlProcessedDate capture (coerceDates rs) with
  | Except.error e => Except.error e
  | Except.ok p =>
    Except.ok
      (match amountColsOf p.cols, dcols with
       | _ :: _, d0 :: _ => addYearMonth d0 p
       | _, _ => p)

/-- Enricher of glue_etl_job.py (lines 65-79): date coercion, unconditional
`withColumn('processed_date', lit(capture))`, then year/month when an
amount- and a date-bearing column exist.  `date_columns` is captured at
line 65, before the processed_date column is written. -/
def glueEnrich (capture : String) (rs : RecordSet) : RecordSet :=
  let dcols := dateColsOf rs.cols
  let p := withColumn "processed_date" (fun _ _ => Value.str capture)
    (coerceDates rs)
  match amountColsOf p.cols, dcols with
  | _ :: _, d0 :: _ => addYearMonth d0 p
  | _, _ => p

/-- Rows surviving the null-amount filter (etl_pipeline.py:154-155,
glue_etl_job.py:81-82): applied only when an amount-bearing column exists. -/
def keptRows (rs : RecordSet) : List (List Value) :=
  match amountColsOf rs.cols with
  | [] => rs.rows
  | a0 :: _ => rs.rows.filter (fun r => getV rs.cols a0 r ≠ Value.null)

/-- Sequential `dropDuplicates`: keep a row exactly when it has not been
seen before; null compares equal to null through value equality. -/
def dedupAux : List (List Value) → List (List Value) → List (List Value)
  | [], _ => []
  | r :: rest, seen =>
    if r ∈ seen then dedupAux rest seen else r :: dedupAux rest (r :: seen)

/-- `dropDuplicates()` keeping first occurrences in order. -/
def dedupFirst (l : List (List Value)) : List (List Value) :=
  dedupAux l []

/-- Quality Filter & Deduplicator (etl_pipeline.py:154-158,
glue_etl_job.py:81-85). -/
def filterDedup (rs : RecordSet) : RecordSet :=
  { cols := rs.cols, rows := dedupFirst (keptRows rs) }

/-- Full transform of etl_pipeline.py (lines 129-161). -/
def etlTransform (capture : String) (rs : RecordSet) : Except String RecordSet :=
  match etlEnrich capture rs.normalize with
  | Except.error e => Except.error e
  | Except.ok p => Except.ok (filterDedup p)

/-- Full transform of glue_etl_job.py (lines 57-85). -/
def glueTransform (capture : String) (rs : RecordSet) : RecordSet :=
  filterDedup (glueEnrich capture rs.normalize)

/-- Output location of ETLPipeline.load (etl_pipeline.py:179-180):
`f"s3a://{bucket}/{pfx}/date={timestamp}"`. -/
def etlLoadPath (bucket pfx timestamp : String) : String :=
  "s3a://" ++ bucket ++ "/" ++ pfx ++ "/date=" ++ timestamp

/-- ETLPipeline.load returns the output path only; the row count is logged,
not returned (etl_pipeline.py:191-194). -/
def etlLoad (bucket pfx timestamp : String) (_df : RecordSet) : String :=
  etlLoadPath bucket pfx timestamp

/-- Output location of the Glue job (glue_etl_job.py:39-40):
`f"s3://{destination_bucket}/{output_prefix}/date={timestamp}/"`. -/
def glueOutputPath (bucket pfx timestamp : String) : String :=
  "s3://" ++ bucket ++ "/" ++ pfx ++ "/date=" ++ timestamp ++ "/"

/-- Destination shape stated by the spec for the Path Planner:
`<bucket>/<output_prefix>/date=<timestamp>/`. -/
def specLocation (bucket pfx timestamp : String) : String :=
  bucket ++ "/" ++ pfx ++ "/date=" ++ timestamp ++ "/"

/-- External-collaborator outcomes a run can encounter: whether the
execution-session initialization succeeds, what extraction returns, and
whether the write succeeds. -/
structure RunEnv where
  initOk : Bool
  extractRes : Except String RecordSet
  loadOk : Bool
  capture : String

/-- Observable outcome of one run: the returned value or error, whether the
run opened an execution session, and whether it released it. -/
structure RunResult where
  result : Except String String
  sessionOpened : Bool
  sessionClosed : Bool

/-- ETLPipeline.run (etl_pipeline.py:200-236).  The body is
`try: initialize_spark; extract; transform; load  finally: if self.spark:
self.spark.stop()`: when `initialize_spark` fails, `self.spark` is still
`None`, so no session was opened and the `finally` block stops nothing; on
every other exit path — extraction failure, transform failure, load
failure, or success — the session was opened and the `finally` block
releases it before the run terminates. -/
def runPipeline (env : RunEnv) (bucket pfx timestamp : String) : RunResult :=
  if env.initOk = false then
    { result := Except.error "spark initialization failed",
      sessionOpened := false, sessionClosed := false }
  else
    match env.extractRes with
    | Except.error e =>
      { result := Except.error e, sessionOpened := true, sessionClosed := true }
    | Except.ok df =>
      match etlTransform env.capture df with
      | Except.error e =>
        { result := Except.error e, sessionOpened := true, sessionClosed := true }
      | Except.ok t =>
        if env.loadOk then
          { result := Except.ok (etlLoad bucket pfx timestamp t),
            sessionOpened := true, sessionClosed := true }
        else
          { result := Except.error "load failed",
            sessionOpened := true, sessionClosed := true }

theorem lowerChar_toNat_of_upper {c : Char} (h1 : 65 ≤ c.toNat)
    (h2 : c.toNat ≤ 90) : (Char.ofNat (c.toNat + 32)).toNat = c.toNat + 32 := by
  have hv : (c.toNat + 32).isValidChar := Or.inl (by omega)
  simp only [Char.ofNat]
  rw [dif_pos hv]
  rfl

theorem lowerChar_toNat {c : Char} :
    (lowerChar c).toNat = if 65 ≤ c.toNat ∧ c.toNat ≤ 90 then c.toNat + 32 else c.toNat := by
  unfold lowerChar
  by_cases h : 65 ≤ c.toNat ∧ c.toNat ≤ 90
  · rw [if_pos h, if_pos h, lowerChar_toNat_of_upper h.1 h.2]
  · rw [if_neg h, if_neg h]

theorem char_toNat_inj {a b : Char} (h : a.toNat = b.toNat) : a = b := by
  have h2 := congrArg Char.ofNat h
  rwa [Char.ofNat_toNat, Char.ofNat_toNat] at h2

theorem lowerChar_idem (c : Char) : lowerChar (lowerChar c) = lowerChar c := by
  apply char_toNat_inj
  rw [lowerChar_toNat, lowerChar_toNat]
  split_ifs <;> omega

theorem lowerChar_ne_space_hyphen {c : Char} (hs : c ≠ ' ') (hh : c ≠ '-') :
    lowerChar c ≠ ' ' ∧ lowerChar c ≠ '-' := by
  have hsn : c.toNat ≠ 32 := fun h => hs (char_toNat_inj h)
  have hhn : c.toNat ≠ 45 := fun h => hh (char_toNat_inj h)
  have ht := lowerChar_toNat (c := c)
  constructor
  · intro h
    rw [h] at ht
    by_cases hu : 65 ≤ c.toNat ∧ c.toNat ≤ 90
    · rw [if_pos hu] at ht
      simp only [show (' ').toNat = 32 from rfl] at ht
      omega
    · rw [if_neg hu] at ht
      simp only [show (' ').toNat = 32 from rfl] at ht
      omega
  · intro h
    rw [h] at ht
    by_cases hu : 65 ≤ c.toNat ∧ c.toNat ≤ 90
    · rw [if_pos hu] at ht
      simp only [show ('-').toNat = 45 from rfl] at ht
      omega
    · rw [if_neg hu] at ht
      simp only [show ('-').toNat = 45 from rfl] at ht
      omega

theorem normChar_idem (c : Char) : normChar (normChar c) = normChar c := by
  unfold normChar
  by_cases h : c = ' ' ∨ c = '-'
  · rw [if_pos h]
    have : ¬ ('_' = ' ' ∨ '_' = '-') := by decide
    rw [if_neg this]
    decide
  · rw [if_neg h]
    push_neg at h
    obtain ⟨h1, h2⟩ := lowerChar_ne_space_hyphen h.1 h.2
    have : ¬ (lowerChar c = ' ' ∨ lowerChar c = '-') := by
      intro hc
      cases hc with
      | inl hc => exact h1 hc
      | inr hc => exact h2 hc
    rw [if_neg this, lowerChar_idem]

theorem normalizeName_idem (s : String) :
    normalizeName (normalizeName s) = normalizeName s := by
  unfold normalizeName
  simp only [List.map_map]
  congr 1
  apply List.map_congr_left
  intro c _
  exact normChar_idem c

theorem normalize_cols (rs : RecordSet) :
    (RecordSet.normalize rs).cols = rs.cols.map normalizeName := rfl

theorem normalize_rows (rs : RecordSet) :
    (RecordSet.normalize rs).rows = rs.rows := rfl

theorem firstIdx_lt_length {cols : List String} {c : String} (h : c ∈ cols) :
    firstIdx cols c < cols.length := by
  induction cols with
  | nil => cases h
  | cons a as ih =>
    unfold firstIdx
    by_cases ha : a = c
    · rw [if_pos ha]; simp
    · rw [if_neg ha]
      have : c ∈ as := by
        cases h with
        | head => exact absurd rfl ha
        | tail _ h => exact h
      simpa using ih this

theorem firstIdx_getElem {cols : List String} {c : String} (h : c ∈ cols) :
    cols[firstIdx cols c]? = some c := by
  induction cols with
  | nil => cases h
  | cons a as ih =>
    unfold firstIdx
    by_cases ha : a = c
    · rw [if_pos ha]; simp [ha]
    · rw [if_neg ha]
      have hc : c ∈ as := by
        cases h with
        | head => exact absurd rfl ha
        | tail _ h => exact h
      simpa using ih hc

theorem firstIdx_append_left {cols : List String} {c : String} (h : c ∈ cols)
    (l : List String) : firstIdx (cols ++ l) c = firstIdx cols c := by
  induction cols with
  | nil => cases h
  | cons a as ih =>
    by_cases ha : a = c
    · simp [firstIdx, ha]
    · have hc : c ∈ as := by
        cases h with
        | head => exact absurd rfl ha
        | tail _ h => exact h
      simp [firstIdx, ha, ih hc]

theorem firstIdx_append_self {cols : List String} {c : String} (h : c ∉ cols) :
    firstIdx (cols ++ [c]) c = cols.length := by
  induction cols with
  | nil => simp [firstIdx]
  | cons a as ih =>
    have ha : ¬ a = c := fun hac => h (hac ▸ List.mem_cons_self a as)
    have hc : c ∉ as := fun hc => h (List.mem_cons_of_mem a hc)
    simp [firstIdx, ha, ih hc]

theorem getV_of_getElem {cols : List String} {c : String} {row : List Value}
    {v : Value} (h : row[firstIdx cols c]? = some v) : getV cols c row = v := by
  unfold getV
  rw [h]
  rfl

/-- Reading an existing column is unaffected by appending values past the
row's end. -/
theorem getV_append {cols : List String} {c : String} (h : c ∈ cols)
    {row : List Value} (hlen : row.length = cols.length) (ext : List Value) :
    getV cols c (row ++ ext) = getV cols c row := by
  unfold getV
  rw [List.getElem?_append_left]
  rw [hlen]
  exact firstIdx_lt_length h

/-- Reading column `c` is unaffected by `List.set` at the index of a column
whose name differs from `c`. -/
theorem getV_set_other {cols : List String} {c name : String} (hc : c ∈ cols)
    (hname : name ∈ cols) (hne : name ≠ c) {row : List Value} (v : Value) :
    getV cols c (row.set (firstIdx cols name) v) = getV cols c row := by
  unfold getV
  rw [List.getElem?_set_ne]
  intro h
  have h1 := firstIdx_getElem hname
  have h2 := firstIdx_getElem hc
  rw [h] at h1
  rw [h1] at h2
  exact hne (Option.some.inj h2)

theorem dedupAux_sublist (l : List (List Value)) :
    ∀ seen, List.Sublist (dedupAux l seen) l := by
  induction l with
  | nil => intro seen; simp [dedupAux]
  | cons r rest ih =>
    intro seen
    unfold dedupAux
    by_cases h : r ∈ seen
    · rw [if_pos h]
      exact List.Sublist.cons r (ih seen)
    · rw [if_neg h]
      exact List.Sublist.cons₂ r (ih (r :: seen))

theorem dedupAux_not_mem_seen (l : List (List Value)) :
    ∀ seen r, r ∈ dedupAux l seen → r ∉ seen := by
  induction l with
  | nil => intro seen r h; simp [dedupAux] at h
  | cons a rest ih =>
    intro seen r h
    unfold dedupAux at h
    by_cases ha : a ∈ seen
    · rw [if_pos ha] at h
      exact ih seen r h
    · rw [if_neg ha] at h
      cases h with
      | head => exact ha
      | tail _ h =>
        intro hr
        exact ih (a :: seen) r h (List.mem_cons_of_mem a hr)

theorem dedupAux_nodup (l : List (List Value)) :
    ∀ seen, (dedupAux l seen).Nodup := by
  induction l with
  | nil => intro seen; simp [dedupAux]
  | cons a rest ih =>
    intro seen
    unfold dedupAux
    by_cases ha : a ∈ seen
    · rw [if_pos ha]
      exact ih seen
    · rw [if_neg ha]
      refine List.Nodup.cons ?_ (ih (a :: seen))
      intro hmem
      exact dedupAux_not_mem_seen rest (a :: seen) a hmem (List.mem_cons_self a seen)

theorem dedupAux_mem (l : List (List Value)) :
    ∀ seen r, r ∈ l → r ∈ seen ∨ r ∈ dedupAux l seen := by
  induction l with
  | nil => intro seen r h; cases h
  | cons a rest ih =>
    intro seen r h
    unfold dedupAux
    by_cases ha : a ∈ seen
    · rw [if_pos ha]
      cases h with
      | head => exact Or.inl ha
      | tail _ h => exact ih seen r h
    · rw [if_neg ha]
      cases h with
      | head => exact Or.inr (List.mem_cons_self a _)
      | tail _ h =>
        cases ih (a :: seen) r h with
        | inl hs =>
          cases hs with
          | head => exact Or.inr (List.mem_cons_self a _)
          | tail _ hs => exact Or.inl hs
        | inr hd => exact Or.inr (List.mem_cons_of_mem a hd)

theorem dedupAux_foldl (l : List (List Value)) :
    ∀ (acc seen : List (List Value)), (∀ r, r ∈ seen ↔ r ∈ acc) →
      l.foldl (fun acc r => if r ∈ acc then acc else acc ++ [r]) acc =
        acc ++ dedupAux l seen := by
  induction l with
  | nil => intro acc seen _; simp [dedupAux]
  | cons a rest ih =>
    intro acc seen hiff
    unfold dedupAux
    simp only [List.foldl_cons]
    by_cases ha : a ∈ seen
    · rw [if_pos ha, if_pos ((hiff a).mp ha)]
      exact ih acc seen hiff
    · rw [if_neg ha, if_neg (fun h => ha ((hiff a).mpr h))]
      rw [ih (acc ++ [a]) (a :: seen) ?_]
      · simp
      · intro r
        constructor
        · intro h
          cases h with
          | head => simp
          | tail _ h => exact List.mem_append_left [a] ((hiff r).mp h)
        · intro h
          rcases List.mem_append.mp h with h | h
          · exact List.mem_cons_of_mem a ((hiff r).mpr h)
          · simp at h
            simp [h]

theorem dedupFirst_sublist (l : List (List Value)) :
    List.Sublist (dedupFirst l) l :=
  dedupAux_sublist l []

theorem dedupFirst_nodup (l : List (List Value)) : (dedupFirst l).Nodup :=
  dedupAux_nodup l []

theorem dedupFirst_mem {l : List (List Value)} {r : List Value} (h : r ∈ l) :
    r ∈ dedupFirst l := by
  cases dedupAux_mem l [] r h with
  | inl hs => cases hs
  | inr hd => exact hd

theorem dedupFirst_eq_foldl (l : List (List Value)) :
    dedupFirst l =
      l.foldl (fun acc r => if r ∈ acc then acc else acc ++ [r]) [] := by
  rw [dedupAux_foldl l [] [] (by simp)]
  simp [dedupFirst]

theorem coerceDates_cols (rs : RecordSet) : (coerceDates rs).cols = rs.cols :=
  rfl

theorem coerceDates_length (rs : RecordSet) :
    (coerceDates rs).rows.length = rs.rows.length := by
  simp [coerceDates]

theorem withColumn_length (name : String)
    (f : List String → List Value → Value) (rs : RecordSet) :
    (withColumn name f rs).rows.length = rs.rows.length := by
  unfold withColumn
  split_ifs <;> simp

theorem addYearMonth_length (d0 : String) (rs : RecordSet) :
    (addYearMonth d0 rs).rows.length = rs.rows.length := by
  unfold addYearMonth
  rw [withColumn_length, withColumn_length]

theorem glueEnrich_length (capture : String) (rs : RecordSet) :
    (glueEnrich capture rs).rows.length = rs.rows.length := by
  simp only [glueEnrich]
  split
  · rw [addYearMonth_length, withColumn_length, coerceDates_length]
  · rw [withColumn_length, coerceDates_length]

theorem etlEnrich_length (capture : String) (rs : RecordSet)
    (out : RecordSet) (h : etlEnrich capture rs = Except.ok out) :
    out.rows.length = rs.rows.length := by
  unfold etlEnrich at h
  unfold etlProcessedDate at h
  by_cases hp : "processed_date" ∈ (coerceDates rs).cols
  · rw [if_pos hp] at h
    simp only [Except.ok.injEq] at h
    subst h
    split
    · rw [addYearMonth_length, withColumn_length, coerceDates_length]
    · rw [withColumn_length, coerceDates_length]
  · rw [if_neg hp] at h
    cases h

theorem keptRows_length (rs : RecordSet) :
    (keptRows rs).length ≤ rs.rows.length := by
  unfold keptRows
  split
  · exact Nat.le_refl _
  · exact List.length_filter_le _ _

theorem filterDedup_length (rs : RecordSet) :
    (filterDedup rs).rows.length ≤ rs.rows.length :=
  Nat.le_trans ((dedupFirst_sublist (keptRows rs)).length_le) (keptRows_length rs)

/-- C5: the Quality Filter & Deduplicator first applies the null-amount
filter (exactly the rows whose value in the first amount-bearing column is
null are dropped, and only when such a column exists), then removes
duplicate rows with value equality (null equal to null), keeping the first
occurrence of each row and preserving the relative order of survivors
(the result is an order-preserving subsequence of the filtered rows, equal
to the canonical first-occurrence fold). -/
theorem c5_filter_dedup (rs : RecordSet) :
    (filterDedup rs).cols = rs.cols ∧
    List.Sublist (filterDedup rs).rows (keptRows rs) ∧
    (filterDedup rs).rows.Nodup ∧
    (∀ r, r ∈ keptRows rs → r ∈ (filterDedup rs).rows) ∧
    (filterDedup rs).rows =
      (keptRows rs).foldl (fun acc r => if r ∈ acc then acc else acc ++ [r]) [] ∧
    (∀ a0 rest, amountColsOf rs.cols = a0 :: rest →
      ∀ r, r ∈ keptRows rs ↔ r ∈ rs.rows ∧ getV rs.cols a0 r ≠ Value.null) ∧
    (amountColsOf rs.cols = [] → keptRows rs = rs.rows) := by
  refine ⟨rfl, dedupFirst_sublist _, dedupFirst_nodup _,
    fun r h => dedupFirst_mem h, dedupFirst_eq_foldl _, ?_, ?_⟩
  · intro a0 rest hA r
    unfold keptRows
    rw [hA]
    simp [List.mem_filter]
  · intro hA
    unfold keptRows
    rw [hA]

/-- C5 witness: on columns `["amount"]` with rows `[[null],[1],[1],[null]]`
the row `[null]` is dropped by the filter. -/
theorem c5_witness :
    [Value.null] ∉ keptRows ⟨["amount"], [[Value.null], [Value.int 1], [Value.int 1], [Value.null]]⟩ := by
  intro hmem
  have h := ((c5_filter_dedup
      ⟨["amount"], [[Value.null], [Value.int 1], [Value.int 1], [Value.null]]⟩).2.2.2.2.2.1
      "amount" [] (by decide) [Value.null]).mp hmem
  exact h.2 (by decide)

/-- C6: row counts are monotonically non-increasing across the stages: the
Enricher preserves the row count exactly (it never removes rows), and the
Filter/Dedup output has at most as many rows as the Enricher output, hence
at most as many as extracted.  This holds for the Glue pipeline
unconditionally and for the etl_pipeline transform whenever its enrichment
stage completes. -/
theorem c6_row_counts (capture : String) (rs : RecordSet) :
    (glueEnrich capture rs.normalize).rows.length = rs.rows.length ∧
    (glueTransform capture rs).rows.length ≤
      (glueEnrich capture rs.normalize).rows.length ∧
    (glueTransform capture rs).rows.length ≤ rs.rows.length ∧
    (∀ out, etlEnrich capture rs.normalize = Except.ok out →
      out.rows.length = rs.rows.length ∧
      etlTransform capture rs = Except.ok (filterDedup out) ∧
      (filterDedup out).rows.length ≤ out.rows.length) := by
  have hg : (glueEnrich capture rs.normalize).rows.length = rs.rows.length := by
    rw [glueEnrich_length]
    rfl
  refine ⟨hg, ?_, ?_, ?_⟩
  · unfold glueTransform
    exact filterDedup_length _
  · unfold glueTransform
    calc (filterDedup (glueEnrich capture rs.normalize)).rows.length
        ≤ (glueEnrich capture rs.normalize).rows.length := filterDedup_length _
      _ = rs.rows.length := hg
  · intro out hout
    have h1 : out.rows.length = rs.rows.length := by
      rw [etlEnrich_length capture rs.normalize out hout]
      rfl
    refine ⟨h1, ?_, filterDedup_length out⟩
    unfold etlTransform
    rw [hout]

/-- C6 witness: concrete run of the etl enrichment with `processed_date`
present, showing equal counts into and shrinking counts out of
Filter/Dedup. -/
theorem c6_witness :
    (filterDedup ⟨["amount", "processed_date", "year", "month"],
        [[Value.int 1, Value.str "2024-03-15", Value.int 2024, Value.int 3]]⟩).rows.length ≤
      (⟨["amount", "processed_date", "year", "month"],
        [[Value.int 1, Value.str "2024-03-15", Value.int 2024, Value.int 3]]⟩ : RecordSet).rows.length :=
  ((c6_row_counts "2024-06-01"
      ⟨["Amount", "processed_date"], [[Value.int 1, Value.str "2024-03-15"]]⟩).2.2.2
    ⟨["amount", "processed_date", "year", "month"],
      [[Value.int 1, Value.str "2024-03-15", Value.int 2024, Value.int 3]]⟩
    (by rfl)).2.2

/-- C3: the Schema Normalizer maps each column name through
`normalizeName` (lowercase, spaces and hyphens to underscores), preserves
the order and number of columns, leaves every row untouched, and is
idempotent: normalizing twice equals normalizing once, both per name and
on whole RecordSets. -/
theorem c3_normalizer_idempotent (rs : RecordSet) :
    (RecordSet.normalize rs).cols = rs.cols.map normalizeName ∧
    (RecordSet.normalize rs).cols.length = rs.cols.length ∧
    (RecordSet.normalize rs).rows = rs.rows ∧
    RecordSet.normalize (RecordSet.normalize rs) = RecordSet.normalize rs ∧
    ∀ s : String, normalizeName (normalizeName s) = normalizeName s := by
  refine ⟨rfl, by simp [RecordSet.normalize], rfl, ?_, normalizeName_idem⟩
  unfold RecordSet.normalize
  simp only [List.map_map]
  congr 1
  apply List.map_congr_left
  intro c _
  exact normalizeName_idem c


/-- C1: evaluation of both transforms at the inputs on which the code
contradicts the documented processed_date contract.  On an input without a
`processed_date` column, etl_pipeline.transform fails with an
unresolved-column error instead of adding the column (its own test fixture
`Transaction ID, Date, Amount, Currency` has no such column); on an input
whose `processed_date` holds the non-null value `2020-01-01`, the Glue job
overwrites it with the capture date instead of preserving it. -/
theorem c1_processed_date_divergence :
    etlTransform "2024-06-01" ⟨["amount"], [[Value.int 100]]⟩ =
      Except.error "cannot resolve column processed_date" ∧
    glueTransform "2024-06-01" ⟨["processed_date"], [[Value.str "2020-01-01"]]⟩ =
      ⟨["processed_date"], [[Value.str "2024-06-01"]]⟩ :=
  ⟨rfl, rfl⟩

/-- C2 counterexample: the colliding source `{"Txn ID", "txn_id"}` raises
nothing.  The Schema Normalizer maps both names to `txn_id`, yielding a
RecordSet with duplicate column names, and (in the Glue pipeline, whose
remaining stages reference neither column) the whole transform completes
normally. -/
theorem c2_counterexample :
    (RecordSet.normalize ⟨["Txn ID", "txn_id"], [[Value.int 1, Value.int 2]]⟩).cols =
      ["txn_id", "txn_id"] ∧
    glueTransform "2024-06-01" ⟨["Txn ID", "txn_id"], [[Value.int 1, Value.int 2]]⟩ =
      ⟨["txn_id", "txn_id", "processed_date"],
        [[Value.int 1, Value.int 2, Value.str "2024-06-01"]]⟩ :=
  ⟨rfl, rfl⟩

/-- C2 amended: the Schema Normalizer performs no collision detection and
cannot fail (no SchemaConflictError exists in the code); two distinct
original names that normalize identically both survive, producing
duplicate column names. -/
theorem c2_amended :
    (∀ rs : RecordSet, RecordSet.normalize rs =
      ⟨rs.cols.map normalizeName, rs.rows⟩) ∧
    normalizeName "Txn ID" = normalizeName "txn_id" ∧
    ¬ (RecordSet.normalize
        ⟨["Txn ID", "txn_id"], [[Value.int 1, Value.int 2]]⟩).cols.Nodup := by
  refine ⟨fun rs => rfl, by decide, by decide⟩

theorem string_append_data (a b : String) : (a ++ b).data = a.data ++ b.data := by
  cases a
  cases b
  rfl

theorem string_data_inj {a b : String} (h : a.data = b.data) : a = b := by
  cases a
  cases b
  simp only at h
  rw [h]

/-- C7 counterexample: the location built by ETLPipeline.load for bucket
`b`, prefix `p` and timestamp `20240101_120000` is
`s3a://b/p/date=20240101_120000`, whose last character is `0`; every
location of the claimed shape `<bucket>/<output_prefix>/date=<timestamp>/`
ends in `/`.  Moreover `load` returns this single string: the row count is
logged, not returned. -/
theorem c7_counterexample :
    etlLoad "b" "p" "20240101_120000" ⟨["amount"], []⟩ =
      "s3a://b/p/date=20240101_120000" ∧
    (etlLoad "b" "p" "20240101_120000" ⟨["amount"], []⟩).data.getLast? =
      some '0' ∧
    (specLocation "b" "p" "20240101_120000").data.getLast? = some '/' ∧
    (some '0' : Option Char) ≠ some '/' :=
  ⟨rfl, by decide, by decide, by decide⟩

/-- C7 amended: on success ETLPipeline.load writes to and returns the
single location `s3a://<bucket>/<prefix>/date=<timestamp>` — the spec
shape without its trailing slash — while the Glue job writes to
`s3://<bucket>/<prefix>/date=<timestamp>/`, exactly the spec shape; the
row count is logged but not part of either return value. -/
theorem c7_amended (bucket pfx timestamp : String) (df : RecordSet) :
    etlLoad bucket pfx timestamp df ++ "/" =
      "s3a://" ++ specLocation bucket pfx timestamp ∧
    glueOutputPath bucket pfx timestamp =
      "s3://" ++ specLocation bucket pfx timestamp := by
  constructor
  · apply string_data_inj
    simp only [etlLoad, etlLoadPath, specLocation, string_append_data,
      List.append_assoc]
  · apply string_data_inj
    simp only [glueOutputPath, specLocation, string_append_data,
      List.append_assoc]

/-- C9: scoped acquisition/release.  On every exit path of
ETLPipeline.run — initialization failure, extraction failure, transform
failure, load failure, or success — the run terminates with the execution
session released exactly when it was opened; in particular it never
terminates with an open session. -/
theorem c9_session_scoped (env : RunEnv) (bucket pfx timestamp : String) :
    (runPipeline env bucket pfx timestamp).sessionClosed =
      (runPipeline env bucket pfx timestamp).sessionOpened := by
  unfold runPipeline
  split
  · rfl
  · split
    · rfl
    · split
      · rfl
      · split
        · rfl
        · rfl

theorem getElem?_append_cons_self (l : List Value) (v : Value) (l' : List Value) :
    (l ++ v :: l')[l.length]? = some v := by
  induction l with
  | nil => simp
  | cons a as ih => simpa using ih

theorem zip_getElem? {l₁ : List String} {l₂ : List Value} {j : Nat}
    {a : String} {b : Value} (h₁ : l₁[j]? = some a) (h₂ : l₂[j]? = some b) :
    (l₁.zip l₂)[j]? = some (a, b) := by
  induction l₁ generalizing l₂ j with
  | nil => cases h₁
  | cons x xs ih =>
    cases l₂ with
    | nil => cases h₂
    | cons y ys =>
      cases j with
      | zero =>
        simp only [List.getElem?_cons_zero, Option.some.injEq] at h₁ h₂
        simp [List.zip_cons_cons, h₁, h₂]
      | succ j =>
        simp only [List.getElem?_cons_succ] at h₁ h₂
        simpa [List.zip_cons_cons] using ih h₁ h₂

theorem firstIdx_append_cons {l1 : List String} {c : String} (h : c ∉ l1)
    (l2 : List String) : firstIdx (l1 ++ c :: l2) c = l1.length := by
  induction l1 with
  | nil => simp [firstIdx]
  | cons a as ih =>
    have ha : ¬ a = c := fun hac => h (hac ▸ List.mem_cons_self a as)
    have hc : c ∉ as := fun hc => h (List.mem_cons_of_mem a hc)
    simp [firstIdx, ha, ih hc]

/-- Reading an existing column is unaffected by extending both the column
list and the row past their ends. -/
theorem getV_extend {cols : List String} {c : String} (h : c ∈ cols)
    {row : List Value} (hlen : row.length = cols.length)
    (morecols : List String) (morevals : List Value) :
    getV (cols ++ morecols) c (row ++ morevals) = getV cols c row := by
  unfold getV
  rw [firstIdx_append_left h, List.getElem?_append_left]
  rw [hlen]
  exact firstIdx_lt_length h

/-- Reading a freshly appended column yields the appended value. -/
theorem getV_appended_new {cols : List String} {c : String} (h : c ∉ cols)
    {row : List Value} (hlen : row.length = cols.length)
    (l2 : List String) (v : Value) (vs : List Value) :
    getV (cols ++ c :: l2) c (row ++ v :: vs) = v := by
  unfold getV
  rw [firstIdx_append_cons h, ← hlen, getElem?_append_cons_self]
  rfl

/-- Reading back the column just written in place. -/
theorem getV_set_self {cols : List String} {c : String} (h : c ∈ cols)
    {row : List Value} (hlen : row.length = cols.length) (v : Value) :
    getV cols c (row.set (firstIdx cols c) v) = v := by
  unfold getV
  rw [List.getElem?_set_self]
  · rfl
  · rw [hlen]
    exact firstIdx_lt_length h

theorem normalize_WF {rs : RecordSet} (h : rs.WF) : rs.normalize.WF := by
  intro r hr
  unfold RecordSet.normalize at hr ⊢
  simp only [List.length_map]
  exact h r hr

theorem coerceDates_WF {rs : RecordSet} (h : rs.WF) : (coerceDates rs).WF := by
  intro r hr
  unfold coerceDates at hr ⊢
  simp only [List.mem_map] at hr
  obtain ⟨row, hrow, hr⟩ := hr
  subst hr
  simp [List.length_zip, h row hrow]

theorem withColumn_WF {name : String} {f : List String → List Value → Value}
    {rs : RecordSet} (h : rs.WF) : (withColumn name f rs).WF := by
  intro r hr
  unfold withColumn at hr ⊢
  by_cases hmem : name ∈ rs.cols
  · rw [if_pos hmem] at hr ⊢
    simp only [List.mem_map] at hr
    obtain ⟨row, hrow, hr⟩ := hr
    subst hr
    simp [h row hrow]
  · rw [if_neg hmem] at hr ⊢
    simp only [List.mem_map] at hr
    obtain ⟨row, hrow, hr⟩ := hr
    subst hr
    simp [h row hrow]

/-- C8: date coercion is per-value and non-fatal.  The stage keeps column
names and the row count, transforms each row pointwise — a value in a
date-bearing column becomes `parseDateVal` of itself, every other value is
untouched — a string that does not parse as a `YYYY-MM-DD` calendar date
becomes null rather than an error, and in particular `"2024-13-40"`
becomes null. -/
theorem c8_date_coercion (rs : RecordSet) :
    (coerceDates rs).cols = rs.cols ∧
    (coerceDates rs).rows.length = rs.rows.length ∧
    (∀ (i : Nat) (row : List Value), rs.rows[i]? = some row →
      ∃ row' : List Value, (coerceDates rs).rows[i]? = some row' ∧
        ∀ (j : Nat) (c : String) (v : Value), rs.cols[j]? = some c → row[j]? = some v →
          row'[j]? = some (if isDateCol c then parseDateVal v else v)) ∧
    (∀ s, parseYMD s = none → parseDateVal (Value.str s) = Value.null) ∧
    parseDateVal (Value.str "2024-13-40") = Value.null := by
  refine ⟨rfl, coerceDates_length rs, ?_, ?_, by decide⟩
  · intro i row hrow
    refine ⟨(rs.cols.zip row).map
      (fun p => if isDateCol p.1 then parseDateVal p.2 else p.2), ?_, ?_⟩
    · unfold coerceDates
      simp only [List.getElem?_map, hrow, Option.map_some']
    · intro j c v hc hv
      rw [List.getElem?_map, zip_getElem? hc hv, Option.map_some']
  · intro s hs
    simp [parseDateVal, hs]

/-- C8 witness: in the date-bearing column `date`, the unparseable value
`"2024-13-40"` comes out as null while the row survives. -/
theorem c8_witness :
    ∃ row' : List Value,
      (coerceDates ⟨["date"], [[Value.str "2024-13-40"]]⟩).rows[0]? = some row' ∧
      row'[0]? = some Value.null := by
  obtain ⟨row', h1, h2⟩ :=
    (c8_date_coercion ⟨["date"], [[Value.str "2024-13-40"]]⟩).2.2.1 0
      [Value.str "2024-13-40"] rfl
  have h3 := h2 0 "date" (Value.str "2024-13-40") rfl rfl
  have h4 : (if isDateCol "date" then parseDateVal (Value.str "2024-13-40")
      else Value.str "2024-13-40") = Value.null := by decide
  rw [h4] at h3
  exact ⟨row', h1, h3⟩

theorem coerce_row_getElem (rs : RecordSet) {i : Nat} {row : List Value}
    (hrow : rs.rows[i]? = some row) :
    (coerceDates rs).rows[i]? = some ((rs.cols.zip row).map
      (fun p => if isDateCol p.1 then parseDateVal p.2 else p.2)) := by
  unfold coerceDates
  simp only [List.getElem?_map, hrow, Option.map_some']

theorem coerce_row_length {rs : RecordSet} {row : List Value}
    (hlen : row.length = rs.cols.length) :
    ((rs.cols.zip row).map
      (fun p => if isDateCol p.1 then parseDateVal p.2 else p.2)).length =
      rs.cols.length := by
  simp [List.length_zip, hlen]

theorem coerce_row_getV {rs : RecordSet} {row : List Value} {d0 : String}
    (hlen : row.length = rs.cols.length) (hmem : d0 ∈ rs.cols)
    (hdate : isDateCol d0 = true) :
    getV rs.cols d0 ((rs.cols.zip row).map
      (fun p => if isDateCol p.1 then parseDateVal p.2 else p.2)) =
      parseDateVal (getV rs.cols d0 row) := by
  have hjr : firstIdx rs.cols d0 < row.length := by
    rw [hlen]
    exact firstIdx_lt_length hmem
  have hc : rs.cols[firstIdx rs.cols d0]? = some d0 := firstIdx_getElem hmem
  have hv : row[firstIdx rs.cols d0]? = some row[firstIdx rs.cols d0] :=
    List.getElem?_eq_getElem hjr
  unfold getV
  rw [List.getElem?_map, zip_getElem? hc hv, Option.map_some', hv]
  simp [hdate]

theorem withColumn_cols (name : String) (f : List String → List Value → Value)
    (rs : RecordSet) :
    (withColumn name f rs).cols =
      if name ∈ rs.cols then rs.cols else rs.cols ++ [name] := by
  unfold withColumn
  split_ifs <;> rfl

/-- One row through the processed_date `withColumn` step: the row at index
`i` survives with matched length, and reading any column other than
`processed_date` is unchanged. -/
theorem processed_step (g : List String → List Value → Value)
    (crs : RecordSet) {i : Nat} {crow : List Value}
    (hrow : crs.rows[i]? = some crow) (hlen : crow.length = crs.cols.length) :
    ∃ prow : List Value,
      (withColumn "processed_date" g crs).rows[i]? = some prow ∧
      prow.length = (withColumn "processed_date" g crs).cols.length ∧
      (∀ d0, d0 ∈ crs.cols → d0 ≠ "processed_date" →
        getV (withColumn "processed_date" g crs).cols d0 prow =
          getV crs.cols d0 crow) := by
  unfold withColumn
  by_cases hpd : "processed_date" ∈ crs.cols
  · rw [if_pos hpd]
    refine ⟨crow.set (firstIdx crs.cols "processed_date") (g crs.cols crow),
      ?_, ?_, ?_⟩
    · simp only [List.getElem?_map, hrow, Option.map_some']
    · simp [hlen]
    · intro d0 hd0 hne
      exact getV_set_other hd0 hpd (fun h => hne h.symm) (g crs.cols crow)
  · rw [if_neg hpd]
    refine ⟨crow ++ [g crs.cols crow], ?_, ?_, ?_⟩
    · simp only [List.getElem?_map, hrow, Option.map_some']
    · simp [hlen]
    · intro d0 hd0 _
      exact getV_extend hd0 hlen ["processed_date"] [g crs.cols crow]

theorem withColumn_absent_row {name : String}
    {f : List String → List Value → Value} {rs : RecordSet}
    (hname : name ∉ rs.cols) {i : Nat} {row : List Value}
    (hrow : rs.rows[i]? = some row) :
    (withColumn name f rs).rows[i]? = some (row ++ [f rs.cols row]) := by
  unfold withColumn
  rw [if_neg hname]
  simp only [List.getElem?_map, hrow, Option.map_some']

/-- One row through the year/month step: both columns are appended, their
values read from column `d0` of the incoming row, and reading any existing
column is unchanged. -/
theorem addYearMonth_step (d0 : String) (p : RecordSet)
    (hy : "year" ∉ p.cols) (hm : "month" ∉ p.cols) (hd0 : d0 ∈ p.cols) :
    (addYearMonth d0 p).cols = p.cols ++ ["year", "month"] ∧
    ∀ (i : Nat) (prow : List Value), p.rows[i]? = some prow →
      prow.length = p.cols.length →
      (addYearMonth d0 p).rows[i]? =
        some (prow ++ [yearOf (getV p.cols d0 prow),
                       monthOf (getV p.cols d0 prow)]) ∧
      getV (addYearMonth d0 p).cols "year"
          (prow ++ [yearOf (getV p.cols d0 prow),
                    monthOf (getV p.cols d0 prow)]) =
        yearOf (getV p.cols d0 prow) ∧
      getV (addYearMonth d0 p).cols "month"
          (prow ++ [yearOf (getV p.cols d0 prow),
                    monthOf (getV p.cols d0 prow)]) =
        monthOf (getV p.cols d0 prow) ∧
      (∀ c, c ∈ p.cols →
        getV (addYearMonth d0 p).cols c
            (prow ++ [yearOf (getV p.cols d0 prow),
                      monthOf (getV p.cols d0 prow)]) =
          getV p.cols c prow) := by
  have hm1 : "month" ∉ p.cols ++ ["year"] := by
    intro h
    rcases List.mem_append.mp h with h | h
    · exact hm h
    · simp at h
  have hycols : (withColumn "year"
      (fun cols row => yearOf (getV cols d0 row)) p).cols = p.cols ++ ["year"] := by
    rw [withColumn_cols, if_neg hy]
  have hcols : (addYearMonth d0 p).cols = p.cols ++ ["year", "month"] := by
    unfold addYearMonth
    rw [withColumn_cols, hycols, if_neg hm1]
    simp
  refine ⟨hcols, ?_⟩
  intro i prow hrow hlen
  have hyrows : (withColumn "year"
      (fun cols row => yearOf (getV cols d0 row)) p).rows[i]? =
      some (prow ++ [yearOf (getV p.cols d0 prow)]) :=
    withColumn_absent_row hy hrow
  have hm1' : "month" ∉ (withColumn "year"
      (fun cols row => yearOf (getV cols d0 row)) p).cols := by
    rw [hycols]
    exact hm1
  have hgv : getV (withColumn "year"
      (fun cols row => yearOf (getV cols d0 row)) p).cols d0
      (prow ++ [yearOf (getV p.cols d0 prow)]) = getV p.cols d0 prow := by
    rw [hycols]
    exact getV_extend hd0 hlen ["year"] [yearOf (getV p.cols d0 prow)]
  have hmrows := withColumn_absent_row (f := fun cols row => monthOf (getV cols d0 row))
    hm1' hyrows
  simp only [hgv] at hmrows
  have hrows : (addYearMonth d0 p).rows[i]? =
      some (prow ++ [yearOf (getV p.cols d0 prow),
                     monthOf (getV p.cols d0 prow)]) := by
    unfold addYearMonth
    rw [hmrows]
    simp
  refine ⟨hrows, ?_, ?_, ?_⟩
  · rw [hcols]
    exact getV_appended_new hy hlen ["month"] (yearOf (getV p.cols d0 prow))
      [monthOf (getV p.cols d0 prow)]
  · rw [hcols]
    have e1 : p.cols ++ ["year", "month"] = (p.cols ++ ["year"]) ++ ["month"] := by
      simp
    have e2 : prow ++ [yearOf (getV p.cols d0 prow), monthOf (getV p.cols d0 prow)] =
        (prow ++ [yearOf (getV p.cols d0 prow)]) ++ [monthOf (getV p.cols d0 prow)] := by
      simp
    rw [e1, e2]
    exact getV_appended_new hm1 (by simp [hlen]) []
      (monthOf (getV p.cols d0 prow)) []
  · intro c hc
    rw [hcols]
    exact getV_extend hc hlen ["year", "month"]
      [yearOf (getV p.cols d0 prow), monthOf (getV p.cols d0 prow)]

theorem isAmountCol_pd : isAmountCol "processed_date" = false := by decide

theorem amountCols_snoc_pd (cols : List String) :
    amountColsOf (cols ++ ["processed_date"]) = amountColsOf cols := by
  unfold amountColsOf
  rw [List.filter_append]
  simp [isAmountCol_pd]

theorem amountCols_withColumn_pd (g : List String → List Value → Value)
    (rs : RecordSet) :
    amountColsOf (withColumn "processed_date" g (coerceDates rs)).cols =
      amountColsOf rs.cols := by
  rw [withColumn_cols]
  split_ifs with h
  · rfl
  · exact amountCols_snoc_pd rs.cols

theorem year_notin_pcols (g : List String → List Value → Value)
    (rs : RecordSet) (hy : "year" ∉ rs.cols) :
    "year" ∉ (withColumn "processed_date" g (coerceDates rs)).cols := by
  rw [withColumn_cols]
  split_ifs with h
  · exact hy
  · intro hmem
    rcases List.mem_append.mp hmem with hmem | hmem
    · exact hy hmem
    · simp at hmem

theorem month_notin_pcols (g : List String → List Value → Value)
    (rs : RecordSet) (hm : "month" ∉ rs.cols) :
    "month" ∉ (withColumn "processed_date" g (coerceDates rs)).cols := by
  rw [withColumn_cols]
  split_ifs with h
  · exact hm
  · intro hmem
    rcases List.mem_append.mp hmem with hmem | hmem
    · exact hm hmem
    · simp at hmem

theorem d0_in_pcols (g : List String → List Value → Value)
    (rs : RecordSet) {d0 : String} (hd0 : d0 ∈ rs.cols) :
    d0 ∈ (withColumn "processed_date" g (coerceDates rs)).cols := by
  rw [withColumn_cols]
  split_ifs with h
  · exact hd0
  · exact List.mem_append_left _ hd0

/-- Shared core of both enrichers: date coercion, then any processed_date
`withColumn` step, then year/month.  When the first date-bearing column
`d0` is not `processed_date`, the appended year and month values are
derived from `d0`'s parsed original value. -/
theorem enrich_core (g : List String → List Value → Value) (rs : RecordSet)
    (hwf : rs.WF) (hy : "year" ∉ rs.cols) (hm : "month" ∉ rs.cols)
    {d0 : String} (hd0mem : d0 ∈ rs.cols) (hdate : isDateCol d0 = true)
    (hne : d0 ≠ "processed_date") :
    (addYearMonth d0 (withColumn "processed_date" g (coerceDates rs))).cols =
      (withColumn "processed_date" g (coerceDates rs)).cols ++ ["year", "month"] ∧
    ∀ (i : Nat) (row : List Value), rs.rows[i]? = some row →
      ∃ row' : List Value,
        (addYearMonth d0 (withColumn "processed_date" g (coerceDates rs))).rows[i]? =
          some row' ∧
        getV (addYearMonth d0 (withColumn "processed_date" g (coerceDates rs))).cols
            "year" row' = yearOf (parseDateVal (getV rs.cols d0 row)) ∧
        getV (addYearMonth d0 (withColumn "processed_date" g (coerceDates rs))).cols
            "month" row' = monthOf (parseDateVal (getV rs.cols d0 row)) := by
  have hpy := year_notin_pcols g rs hy
  have hpm := month_notin_pcols g rs hm
  have hpd0 := d0_in_pcols g rs hd0mem
  obtain ⟨hcols, hstep⟩ :=
    addYearMonth_step d0 (withColumn "processed_date" g (coerceDates rs)) hpy hpm hpd0
  refine ⟨hcols, ?_⟩
  intro i row hrow
  have hlen : row.length = rs.cols.length := hwf row (List.getElem?_mem hrow)
  have hcrow := coerce_row_getElem rs hrow
  have hclen : ((rs.cols.zip row).map
      (fun p => if isDateCol p.1 then parseDateVal p.2 else p.2)).length =
      (coerceDates rs).cols.length := coerce_row_length hlen
  obtain ⟨prow, hprow, hplen, hpother⟩ :=
    processed_step g (coerceDates rs) hcrow hclen
  have hpd0v : getV (withColumn "processed_date" g (coerceDates rs)).cols d0 prow =
      parseDateVal (getV rs.cols d0 row) := by
    rw [hpother d0 hd0mem hne]
    exact coerce_row_getV hlen hd0mem hdate
  obtain ⟨hrows, hgy, hgm, _⟩ := hstep i prow hprow hplen
  refine ⟨prow ++ [yearOf (getV (withColumn "processed_date" g (coerceDates rs)).cols d0 prow),
    monthOf (getV (withColumn "processed_date" g (coerceDates rs)).cols d0 prow)],
    hrows, ?_, ?_⟩
  · rw [hgy, hpd0v]
  · rw [hgm, hpd0v]

theorem glueEnrich_match (capture : String) (rs : RecordSet)
    {a0 d0 : String} {arest drest : List String}
    (hA : amountColsOf rs.cols = a0 :: arest)
    (hD : dateColsOf rs.cols = d0 :: drest) :
    glueEnrich capture rs =
      addYearMonth d0 (withColumn "processed_date"
        (fun _ _ => Value.str capture) (coerceDates rs)) := by
  have hA' := (amountCols_withColumn_pd (fun _ _ => Value.str capture) rs).trans hA
  simp only [glueEnrich]
  rw [hA', hD]

theorem glueEnrich_no_ym (capture : String) (rs : RecordSet)
    (h : amountColsOf rs.cols = [] ∨ dateColsOf rs.cols = []) :
    glueEnrich capture rs =
      withColumn "processed_date" (fun _ _ => Value.str capture)
        (coerceDates rs) := by
  simp only [glueEnrich]
  rcases h with hA | hD
  · have hA' := (amountCols_withColumn_pd (fun _ _ => Value.str capture) rs).trans hA
    rw [hA']
  · rw [hD]
    cases hA' : amountColsOf (withColumn "processed_date"
        (fun _ _ => Value.str capture) (coerceDates rs)).cols <;> rfl

theorem etlProcessedDate_present (capture : String) (crs : RecordSet)
    (hpd : "processed_date" ∈ crs.cols) :
    etlProcessedDate capture crs = Except.ok (withColumn "processed_date"
      (fun cols row =>
        let v := getV cols "processed_date" row
        if v = Value.null then Value.str capture else castStr v) crs) := by
  unfold etlProcessedDate
  rw [if_pos hpd]

theorem etlProcessedDate_absent (capture : String) (crs : RecordSet)
    (hpd : "processed_date" ∉ crs.cols) :
    etlProcessedDate capture crs =
      Except.error "cannot resolve column processed_date" := by
  unfold etlProcessedDate
  rw [if_neg hpd]

theorem etlEnrich_match (capture : String) (rs : RecordSet)
    (hpd : "processed_date" ∈ rs.cols) {a0 d0 : String} {arest drest : List String}
    (hA : amountColsOf rs.cols = a0 :: arest)
    (hD : dateColsOf rs.cols = d0 :: drest) :
    etlEnrich capture rs = Except.ok
      (addYearMonth d0 (withColumn "processed_date"
        (fun cols row =>
          let v := getV cols "processed_date" row
          if v = Value.null then Value.str capture else castStr v)
        (coerceDates rs))) := by
  have hA' := (amountCols_withColumn_pd
    (fun cols row =>
      let v := getV cols "processed_date" row
      if v = Value.null then Value.str capture else castStr v) rs).trans hA
  simp only [etlEnrich]
  rw [etlProcessedDate_present capture (coerceDates rs) hpd]
  simp only []
  rw [hA', hD]

theorem etlEnrich_no_ym (capture : String) (rs : RecordSet)
    (hpd : "processed_date" ∈ rs.cols)
    (h : amountColsOf rs.cols = [] ∨ dateColsOf rs.cols = []) :
    etlEnrich capture rs = Except.ok
      (withColumn "processed_date"
        (fun cols row =>
          let v := getV cols "processed_date" row
          if v = Value.null then Value.str capture else castStr v)
        (coerceDates rs)) := by
  simp only [etlEnrich]
  rw [etlProcessedDate_present capture (coerceDates rs) hpd]
  simp only []
  rcases h with hA | hD
  · have hA' := (amountCols_withColumn_pd
      (fun cols row =>
        let v := getV cols "processed_date" row
        if v = Value.null then Value.str capture else castStr v) rs).trans hA
    rw [hA']
  · rw [hD]
    cases hA' : amountColsOf (withColumn "processed_date"
        (fun cols row =>
          let v := getV cols "processed_date" row
          if v = Value.null then Value.str capture else castStr v)
        (coerceDates rs)).cols <;> rfl

theorem etlEnrich_absent (capture : String) (rs : RecordSet)
    (hpd : "processed_date" ∉ rs.cols) :
    etlEnrich capture rs =
      Except.error "cannot resolve column processed_date" := by
  simp only [etlEnrich]
  rw [etlProcessedDate_absent capture (coerceDates rs) hpd]

theorem dateCols_head_mem {cols : List String} {d0 : String}
    {drest : List String} (hD : dateColsOf cols = d0 :: drest) :
    d0 ∈ cols ∧ isDateCol d0 = true := by
  have hmem : d0 ∈ dateColsOf cols := by
    rw [hD]
    exact List.mem_cons_self d0 drest
  unfold dateColsOf at hmem
  exact ⟨List.mem_of_mem_filter hmem, by simpa using List.of_mem_filter hmem⟩

/-- C4 counterexample: with columns `amount` and `processed_date` (the
latter being the first and only date-bearing column) and a null date
value, both enrichers derive `year = 2025` from the capture-filled value
`2025-06-01` instead of the null the claim requires for a row whose date
failed to parse. -/
theorem c4_counterexample :
    glueEnrich "2025-06-01"
        ⟨["amount", "processed_date"], [[Value.int 5, Value.null]]⟩ =
      ⟨["amount", "processed_date", "year", "month"],
       [[Value.int 5, Value.str "2025-06-01", Value.int 2025, Value.int 6]]⟩ ∧
    etlEnrich "2025-06-01"
        ⟨["amount", "processed_date"], [[Value.int 5, Value.null]]⟩ =
      Except.ok
        ⟨["amount", "processed_date", "year", "month"],
         [[Value.int 5, Value.str "2025-06-01", Value.int 2025, Value.int 6]]⟩ ∧
    parseDateVal Value.null = Value.null ∧
    Value.int 2025 ≠ Value.null :=
  ⟨rfl, rfl, rfl, by decide⟩

/-- C4 amended: when no amount-bearing or no date-bearing column exists,
neither `year` nor `month` is added by either enricher.  When both exist
and the first date-bearing column `d0` is not `processed_date`, both
enrichers append integer columns `year` and `month` whose per-row values
are derived from `d0`'s parsed date, null when that row's date failed to
parse; when `d0` is `processed_date` itself, the derivation instead sees
the capture-filled value (see the counterexample). -/
theorem c4_amended (capture : String) (rs : RecordSet) (hwf : rs.WF)
    (hy : "year" ∉ rs.cols) (hm : "month" ∉ rs.cols) :
    ((amountColsOf rs.cols = [] ∨ dateColsOf rs.cols = []) →
      ("year" ∉ (glueEnrich capture rs).cols ∧
       "month" ∉ (glueEnrich capture rs).cols ∧
       ∀ out : RecordSet, etlEnrich capture rs = Except.ok out →
         "year" ∉ out.cols ∧ "month" ∉ out.cols)) ∧
    (∀ (a0 d0 : String) (arest drest : List String),
      amountColsOf rs.cols = a0 :: arest → dateColsOf rs.cols = d0 :: drest →
      d0 ≠ "processed_date" →
      ((glueEnrich capture rs).cols =
        (withColumn "processed_date" (fun _ _ => Value.str capture)
          (coerceDates rs)).cols ++ ["year", "month"] ∧
       ∀ (i : Nat) (row : List Value), rs.rows[i]? = some row →
        ∃ row' : List Value, (glueEnrich capture rs).rows[i]? = some row' ∧
          getV (glueEnrich capture rs).cols "year" row' =
            yearOf (parseDateVal (getV rs.cols d0 row)) ∧
          getV (glueEnrich capture rs).cols "month" row' =
            monthOf (parseDateVal (getV rs.cols d0 row))) ∧
      (∀ out : RecordSet, etlEnrich capture rs = Except.ok out →
       ∀ (i : Nat) (row : List Value), rs.rows[i]? = some row →
        ∃ row' : List Value, out.rows[i]? = some row' ∧
          getV out.cols "year" row' =
            yearOf (parseDateVal (getV rs.cols d0 row)) ∧
          getV out.cols "month" row' =
            monthOf (parseDateVal (getV rs.cols d0 row)))) := by
  constructor
  · intro h
    rw [glueEnrich_no_ym capture rs h]
    refine ⟨year_notin_pcols _ rs hy, month_notin_pcols _ rs hm, ?_⟩
    intro out hout
    by_cases hpd : "processed_date" ∈ rs.cols
    · rw [etlEnrich_no_ym capture rs hpd h] at hout
      simp only [Except.ok.injEq] at hout
      subst hout
      exact ⟨year_notin_pcols _ rs hy, month_notin_pcols _ rs hm⟩
    · rw [etlEnrich_absent capture rs hpd] at hout
      cases hout
  · intro a0 d0 arest drest hA hD hne
    obtain ⟨hd0mem, hdate⟩ := dateCols_head_mem hD
    constructor
    · rw [glueEnrich_match capture rs hA hD]
      exact enrich_core (fun _ _ => Value.str capture) rs hwf hy hm hd0mem hdate hne
    · intro out hout
      by_cases hpd : "processed_date" ∈ rs.cols
      · rw [etlEnrich_match capture rs hpd hA hD] at hout
        simp only [Except.ok.injEq] at hout
        subst hout
        exact (enrich_core _ rs hwf hy hm hd0mem hdate hne).2
      · rw [etlEnrich_absent capture rs hpd] at hout
        cases hout

/-- C4 witness: columns `amount` and `date` with date value `2024-03-15`
give `year = 2024` and `month = 3`. -/
theorem c4_witness :
    ∃ row' : List Value,
      (glueEnrich "2024-06-01" ⟨["amount", "date"],
        [[Value.int 100, Value.str "2024-03-15"]]⟩).rows[0]? = some row' ∧
      getV (glueEnrich "2024-06-01" ⟨["amount", "date"],
        [[Value.int 100, Value.str "2024-03-15"]]⟩).cols "year" row' =
        Value.int 2024 ∧
      getV (glueEnrich "2024-06-01" ⟨["amount", "date"],
        [[Value.int 100, Value.str "2024-03-15"]]⟩).cols "month" row' =
        Value.int 3 := by
  obtain ⟨row', h1, h2, h3⟩ := (((c4_amended "2024-06-01"
      ⟨["amount", "date"], [[Value.int 100, Value.str "2024-03-15"]]⟩
      (by unfold RecordSet.WF; decide) (by decide) (by decide)).2
      "amount" "date" [] [] (by decide) (by decide) (by decide)).1).2 0
      [Value.int 100, Value.str "2024-03-15"] rfl
  refine ⟨row', h1, ?_, ?_⟩
  · rw [h2]
    decide
  · rw [h3]
    decide

/-- One row through any `withColumn` step: a column whose name differs from
the written one reads unchanged. -/
theorem withColumn_row_other {name : String}
    {f : List String → List Value → Value} {rs : RecordSet} {i : Nat}
    {row : List Value} {c : String} (hrow : rs.rows[i]? = some row)
    (hlen : row.length = rs.cols.length) (hc : c ∈ rs.cols) (hne : name ≠ c) :
    ∃ row2 : List Value, (withColumn name f rs).rows[i]? = some row2 ∧
      row2.length = (withColumn name f rs).cols.length ∧
      c ∈ (withColumn name f rs).cols ∧
      getV (withColumn name f rs).cols c row2 = getV rs.cols c row := by
  unfold withColumn
  by_cases hmem : name ∈ rs.cols
  · rw [if_pos hmem]
    refine ⟨row.set (firstIdx rs.cols name) (f rs.cols row), ?_, ?_, hc, ?_⟩
    · simp only [List.getElem?_map, hrow, Option.map_some']
    · simp [hlen]
    · exact getV_set_other hc hmem hne (f rs.cols row)
  · rw [if_neg hmem]
    refine ⟨row ++ [f rs.cols row], ?_, ?_, List.mem_append_left _ hc, ?_⟩
    · simp only [List.getElem?_map, hrow, Option.map_some']
    · simp [hlen]
    · exact getV_extend hc hlen [name] [f rs.cols row]

/-- One row through the year/month step, for reading a column that is
neither `year` nor `month`: its value is unchanged. -/
theorem addYearMonth_row_other (d0 : String) {p : RecordSet} {i : Nat}
    {prow : List Value} {c : String} (hrow : p.rows[i]? = some prow)
    (hlen : prow.length = p.cols.length) (hc : c ∈ p.cols)
    (hcy : c ≠ "year") (hcm : c ≠ "month") :
    ∃ orow : List Value, (addYearMonth d0 p).rows[i]? = some orow ∧
      getV (addYearMonth d0 p).cols c orow = getV p.cols c prow := by
  obtain ⟨row2, hrow2, hlen2, hc2, hv2⟩ := withColumn_row_other
    (f := fun cols row => yearOf (getV cols d0 row)) hrow hlen hc
    (fun h => hcy h.symm)
  obtain ⟨row3, hrow3, _, _, hv3⟩ := withColumn_row_other
    (f := fun cols row => monthOf (getV cols d0 row)) hrow2 hlen2 hc2
    (fun h => hcm h.symm)
  exact ⟨row3, hrow3, hv3.trans hv2⟩

/-- C10: the date-bearing column set is captured before the processed_date
step.  For every enricher input lacking a `processed_date` column: that
name is not among the date-bearing columns; the first date-bearing column
(when one exists) is a column of the input and is never `processed_date`;
with no input date-bearing column, the Glue enricher adds `processed_date`
yet still no `year`/`month`; the added `processed_date` column always holds
the verbatim capture string, never a coerced date; and the etl_pipeline
enricher fails outright on such inputs (it never adds the column). -/
theorem c10_enrichment_order (capture : String) (rs : RecordSet)
    (hwf : rs.WF) (hpd : "processed_date" ∉ rs.cols) :
    "processed_date" ∉ dateColsOf rs.cols ∧
    (∀ (d0 : String) (drest : List String), dateColsOf rs.cols = d0 :: drest →
      d0 ∈ rs.cols ∧ d0 ≠ "processed_date") ∧
    (dateColsOf rs.cols = [] →
      (glueEnrich capture rs).cols = rs.cols ++ ["processed_date"]) ∧
    (∀ (i : Nat) (row : List Value), rs.rows[i]? = some row →
      ∃ row' : List Value, (glueEnrich capture rs).rows[i]? = some row' ∧
        getV (glueEnrich capture rs).cols "processed_date" row' =
          Value.str capture) ∧
    etlEnrich capture rs = Except.error "cannot resolve column processed_date" := by
  refine ⟨?_, ?_, ?_, ?_, etlEnrich_absent capture rs hpd⟩
  · intro h
    unfold dateColsOf at h
    exact hpd (List.mem_of_mem_filter h)
  · intro d0 drest hD
    obtain ⟨hmem, _⟩ := dateCols_head_mem hD
    exact ⟨hmem, fun he => hpd (he ▸ hmem)⟩
  · intro hD
    rw [glueEnrich_no_ym capture rs (Or.inr hD), withColumn_cols,
      coerceDates_cols, if_neg hpd]
  · intro i row hrow
    have hclen : ((rs.cols.zip row).map
        (fun p => if isDateCol p.1 then parseDateVal p.2 else p.2)).length =
        rs.cols.length :=
      coerce_row_length (hwf row (List.getElem?_mem hrow))
    have hprow := withColumn_absent_row
      (f := fun _ _ => Value.str capture)
      (show "processed_date" ∉ (coerceDates rs).cols from hpd)
      (coerce_row_getElem rs hrow)
    have hpval : getV (withColumn "processed_date"
        (fun _ _ => Value.str capture) (coerceDates rs)).cols "processed_date"
        ((rs.cols.zip row).map
          (fun p => if isDateCol p.1 then parseDateVal p.2 else p.2) ++
         [Value.str capture]) = Value.str capture := by
      rw [withColumn_cols, coerceDates_cols, if_neg hpd]
      exact getV_appended_new hpd hclen [] (Value.str capture) []
    have hplen : ((rs.cols.zip row).map
        (fun p => if isDateCol p.1 then parseDateVal p.2 else p.2) ++
        [Value.str capture]).length =
        (withColumn "processed_date"
          (fun _ _ => Value.str capture) (coerceDates rs)).cols.length := by
      rw [withColumn_cols, coerceDates_cols, if_neg hpd]
      simp only [List.length_append, List.length_map]
      simp [List.length_zip, hwf row (List.getElem?_mem hrow)]
    have hpdmem : "processed_date" ∈ (withColumn "processed_date"
        (fun _ _ => Value.str capture) (coerceDates rs)).cols := by
      rw [withColumn_cols, coerceDates_cols, if_neg hpd]
      simp
    rcases hD : dateColsOf rs.cols with _ | ⟨d0, drest⟩
    · rw [glueEnrich_no_ym capture rs (Or.inr hD)]
      exact ⟨_, hprow, hpval⟩
    · rcases hA : amountColsOf rs.cols with _ | ⟨a0, arest⟩
      · rw [glueEnrich_no_ym capture rs (Or.inl hA)]
        exact ⟨_, hprow, hpval⟩
      · rw [glueEnrich_match capture rs hA hD]
        obtain ⟨orow, horow, hov⟩ := addYearMonth_row_other d0 hprow hplen
          hpdmem (by decide) (by decide)
        exact ⟨orow, horow, hov.trans hpval⟩

/-- C10 witness: on columns `["amount"]` (no date-bearing column at all)
the Glue enricher appends `processed_date` but no `year`/`month`. -/
theorem c10_witness :
    (glueEnrich "2024-06-01" ⟨["amount"], [[Value.int 1]]⟩).cols =
      ["amount", "processed_date"] :=
  (c10_enrichment_order "2024-06-01" ⟨["amount"], [[Value.int 1]]⟩
    (by unfold RecordSet.WF; decide) (by decide)).2.2.1 (by decide)
